import Mathlib

/-!
Verification of the core of `mcp-screenshot-server`: the bounded in-memory
image cache with LRU eviction and per-image undo history
(`src/mcp_screenshot_server/storage.py`), the server-level tools built on it
(`undo`, `delete_image`, `configure_limits` in
`src/mcp_screenshot_server/server.py`), and the position-resolution helpers
(`_parse_position`, `_auto_adjust_position` in the same file).

The Python module state (`_image_store`, `_image_history`, `_image_metadata`,
`_image_order`, the limit globals and the id counter) is embedded as one
explicit state record `CacheState`; Python dicts become association lists
with dict semantics (update keeps position, insert appends), Python floats
become exact rationals, and PNG-encoded byte strings become a `Png` record
carrying the byte payload together with the decoded pixel dimensions.
-/

deriving instance DecidableEq for Except

namespace McpScreenshot

/-! ## Association lists with Python dict semantics -/

/-- Lookup of a key, first match (Python `d[k]` / `k in d`). -/
def dictGet {α : Type} (d : List (String × α)) (k : String) : Option α :=
  match d with
  | [] => Option.none
  | (k1, v) :: t => if k1 = k then Option.some v else dictGet t k

/-- Update in place when the key is present, append when absent
(Python `d[k] = v` on an insertion-ordered dict). -/
def dictSet {α : Type} (d : List (String × α)) (k : String) (v : α) : List (String × α) :=
  match d with
  | [] => [(k, v)]
  | (k1, v1) :: t => if k1 = k then (k, v) :: t else (k1, v1) :: dictSet t k v

/-- Removal of the entry of a key (Python `del d[k]`, a no-op when absent). -/
def dictErase {α : Type} (d : List (String × α)) (k : String) : List (String × α) :=
  match d with
  | [] => []
  | (k1, v1) :: t => if k1 = k then t else (k1, v1) :: dictErase t k

/-- Key list of an association list, in dict order. -/
def dictKeys {α : Type} (d : List (String × α)) : List String :=
  d.map Prod.fst

/-! ## The image cache state (module globals of storage.py) -/

/-- A PNG-encoded byte string, viewed together with its decoded pixel
dimensions: `bytes` stands for the encoded buffer (`buffer.getvalue()` in
`store_image`) and `width`/`height` are the dimensions PIL decodes from it.
The byte length of the encoding is `bytes.length`. -/
structure Png where
  width : Nat
  height : Nat
  bytes : List Nat
deriving DecidableEq, Repr

/-- Byte length of an encoded image (`len(data)` in Python). -/
def Png.size (p : Png) : Nat := p.bytes.length

/-- The module-level mutable state of `storage.py`: `_image_store`,
`_image_history`, `_image_metadata`, `_image_order`, the three limit
globals `_MAX_IMAGES`, `_MAX_MEMORY_MB`, `_UNDO_LEVELS`, and
`_image_counter`. -/
structure CacheState where
  imageStore : List (String × Png)
  imageHistory : List (String × List Png)
  imageMetadata : List (String × (Nat × Nat))
  imageOrder : List String
  maxImages : Nat
  maxMemoryMB : Nat
  undoLevels : Nat
  imageCounter : Nat
deriving DecidableEq, Repr

/-- The state at session start with the given limits: all four maps empty,
counter zero (storage.py module initialisation). -/
def initState (maxImages maxMemoryMB undoLevels : Nat) : CacheState :=
  { imageStore := [], imageHistory := [], imageMetadata := [], imageOrder := [],
    maxImages := maxImages, maxMemoryMB := maxMemoryMB,
    undoLevels := undoLevels, imageCounter := 0 }

/-- Total byte count held by the store: resident encodings plus every
history snapshot (the sums inside `get_total_memory_mb`). -/
def totalMemoryBytes (s : CacheState) : Nat :=
  (s.imageStore.map (fun p => p.2.size)).sum
    + (s.imageHistory.map (fun p => (p.2.map Png.size).sum)).sum

/-- Exact-rational embedding of `get_total_memory_mb`: the byte total
divided by 1024 * 1024 (Python computes this with float division; the values
involved are small enough that the float comparison against the integer
limit agrees with the exact rational one). -/
def get_total_memory_mb (s : CacheState) : ℚ :=
  (totalMemoryBytes s : ℚ) / (1024 * 1024)

/-- Guard of the count-eviction loop: `len(_image_store) > _MAX_IMAGES`. -/
def count_exceeded (s : CacheState) : Bool :=
  decide (s.maxImages < s.imageStore.length)

/-- Guard of the memory-eviction loop:
`get_total_memory_mb() > _MAX_MEMORY_MB`, stated over byte counts. -/
def memory_exceeded (s : CacheState) : Bool :=
  decide (s.maxMemoryMB * (1024 * 1024) < totalMemoryBytes s)

/-- Embedding of `remove_image_internal`: drop the id from all four
structures. -/
def remove_image_internal (s : CacheState) (imageId : String) : CacheState :=
  { s with imageStore := dictErase s.imageStore imageId,
           imageHistory := dictErase s.imageHistory imageId,
           imageMetadata := dictErase s.imageMetadata imageId,
           imageOrder := s.imageOrder.erase imageId }

/-- Embedding of `touch_image`: move the id to the end of the LRU order when
it is present there, otherwise do nothing. -/
def touch_image (s : CacheState) (imageId : String) : CacheState :=
  if imageId ∈ s.imageOrder then
    { s with imageOrder := s.imageOrder.erase imageId ++ [imageId] }
  else s

/-- One `while cond: remove head` eviction loop of `evict_if_needed`. The
queue argument mirrors `_image_order` (each iteration removes exactly the
head of the order, so walking the order list is the loop); the guard is
re-evaluated on the current state every iteration, and the loop stops when
the order is exhausted. Returns the state and the evicted ids in order. -/
def evictLoop (cond : CacheState → Bool) : List String → CacheState → CacheState × List String
  | [], s => (s, [])
  | oldest :: rest, s =>
      if cond s then
        let r := evictLoop cond rest (remove_image_internal s oldest)
        (r.1, oldest :: r.2)
      else (s, [])

/-- Embedding of `evict_if_needed`: first evict by count, then by memory,
accumulating the evicted ids. -/
def evict_if_needed (s : CacheState) : CacheState × List String :=
  let r1 := evictLoop count_exceeded s.imageOrder s
  let r2 := evictLoop memory_exceeded r1.1.imageOrder r1.1
  (r2.1, r1.2 ++ r2.2)

/-- Embedding of `generate_image_id` on the post-increment counter value.
The wall-clock timestamp component of the Python id
(`img_<timestamp>_<counter>`) comes from an external clock and is omitted;
only the monotonic counter component is modelled. -/
def generate_image_id (counter : Nat) : String :=
  "img_" ++ toString counter

/-- Embedding of `store_image` up to but excluding its final
`evict_if_needed()` call: mint an id when none is supplied (forcing
`save_history` off), push the current bytes onto the undo stack when
overwriting a resident id with `save_history` on (trimming one entry from
the front when the stack exceeds `_UNDO_LEVELS`), write bytes and metadata,
and update the LRU order (append for minted ids, `touch_image` otherwise). -/
def storeNoEvict (s : CacheState) (image : Png) (imageId : Option String)
    (saveHistory : Bool) : CacheState × String :=
  match imageId with
  | Option.none =>
      let c := s.imageCounter + 1
      let id := generate_image_id c
      let s1 := { s with imageCounter := c }
      let s2 := { s1 with imageStore := dictSet s1.imageStore id image,
                          imageMetadata := dictSet s1.imageMetadata id (image.width, image.height) }
      let s3 := { s2 with imageOrder := s2.imageOrder ++ [id] }
      (s3, id)
  | Option.some id =>
      let s1 :=
        match dictGet s.imageStore id, saveHistory with
        | Option.some current, true =>
            let hist1 := (dictGet s.imageHistory id).getD [] ++ [current]
            let hist2 := if s.undoLevels < hist1.length then hist1.drop 1 else hist1
            { s with imageHistory := dictSet s.imageHistory id hist2 }
        | _, _ => s
      let s2 := { s1 with imageStore := dictSet s1.imageStore id image,
                          imageMetadata := dictSet s1.imageMetadata id (image.width, image.height) }
      let s3 := touch_image s2 id
      (s3, id)

/-- Embedding of `store_image`: the pre-eviction body followed by the
synchronous `evict_if_needed()` pass; returns the id used. -/
def store_image (s : CacheState) (image : Png) (imageId : Option String)
    (saveHistory : Bool) : CacheState × String :=
  let r := storeNoEvict s image imageId saveHistory
  ((evict_if_needed r.1).1, r.2)

/-- Embedding of `get_image`: error when the id is not resident, otherwise
touch the LRU order and return the decoded image. -/
def get_image (s : CacheState) (imageId : String) : Except String (CacheState × Png) :=
  match dictGet s.imageStore imageId with
  | Option.none => Except.error "Image not found. Use list_images to see available images."
  | Option.some data => Except.ok (touch_image s imageId, data)

/-! ## Server-level tools (server.py) and limit configuration -/

/-- Embedding of the `undo` tool (server.py): error when the id has no
history entry or an empty stack, otherwise pop the most recent snapshot
(`.pop()` pops the last element), install it as the current bytes, and
report the remaining depth. The metadata map is not touched. -/
def undo (s : CacheState) (imageId : String) : Except String (CacheState × Nat) :=
  match dictGet s.imageHistory imageId with
  | Option.none => Except.error "No undo history available"
  | Option.some [] => Except.error "No undo history available"
  | Option.some (h0 :: t) =>
      let hist := h0 :: t
      let prev := hist.getLast (List.cons_ne_nil h0 t)
      let remaining := hist.dropLast
      Except.ok
        ({ s with imageStore := dictSet s.imageStore imageId prev,
                  imageHistory := dictSet s.imageHistory imageId remaining },
         remaining.length)

/-- Embedding of the `delete_image` tool: error when absent, otherwise
`remove_image_internal`. -/
def delete_image (s : CacheState) (imageId : String) : Except String CacheState :=
  match dictGet s.imageStore imageId with
  | Option.none => Except.error "Image not found."
  | Option.some _ => Except.ok (remove_image_internal s imageId)

/-- The `while len(history) > _UNDO_LEVELS: history.pop(0)` trimming loop of
`configure_limits` in storage.py, applied to one history stack. -/
def trimHistory (undoLevels : Nat) : List Png → List Png
  | [] => []
  | x :: t => if undoLevels < (x :: t).length then trimHistory undoLevels t else x :: t

/-- The limit-assignment part of storage.py `configure_limits`, before its
final `evict_if_needed()`: set each provided limit; when `undo_levels` is
provided, trim every existing history stack to the new bound. -/
def applyLimits (s : CacheState) (max_images max_memory_mb undo_levels : Option Nat) :
    CacheState :=
  let s1 := match max_images with
    | Option.some v => { s with maxImages := v }
    | Option.none => s
  let s2 := match max_memory_mb with
    | Option.some v => { s1 with maxMemoryMB := v }
    | Option.none => s1
  match undo_levels with
  | Option.some v =>
      { s2 with undoLevels := v,
                imageHistory := s2.imageHistory.map (fun p => (p.1, trimHistory v p.2)) }
  | Option.none => s2

/-- Embedding of storage.py `configure_limits`: assign limits, trim
histories, then run eviction; returns the new limits and the evicted ids. -/
def configure_limits (s : CacheState) (max_images max_memory_mb undo_levels : Option Nat) :
    CacheState × Nat × Nat × Nat × List String :=
  let s1 := applyLimits s max_images max_memory_mb undo_levels
  let r := evict_if_needed s1
  (r.1, r.1.maxImages, r.1.maxMemoryMB, r.1.undoLevels, r.2)

/-- The single error kind of the limit configurator. -/
inductive LimitError where
  | invalidLimit
deriving DecidableEq, Repr

/-- The pydantic `Field` range constraints on the server-level
`configure_limits` tool: `max_images` ge 1, `max_memory_mb` ge 10,
`undo_levels` ge 1 and le 100, each checked only when provided. -/
def limits_out_of_range (max_images max_memory_mb undo_levels : Option Int) : Bool :=
  (match max_images with
    | Option.some v => decide (v < 1)
    | Option.none => false)
  || (match max_memory_mb with
    | Option.some v => decide (v < 10)
    | Option.none => false)
  || (match undo_levels with
    | Option.some v => decide (v < 1) || decide (100 < v)
    | Option.none => false)

/-- Embedding of the server-level `configure_limits` tool: the pydantic
argument validation rejects any out-of-range value before the body runs (so
the state is returned untouched with an error); otherwise the storage-level
`configure_limits` is invoked and its results reported (the last component
is the evicted count). -/
def server_configure_limits (s : CacheState) (max_images max_memory_mb undo_levels : Option Int) :
    CacheState × Except LimitError (Nat × Nat × Nat × Nat) :=
  if limits_out_of_range max_images max_memory_mb undo_levels then
    (s, Except.error LimitError.invalidLimit)
  else
    let r := configure_limits s (max_images.map Int.toNat)
      (max_memory_mb.map Int.toNat) (undo_levels.map Int.toNat)
    (r.1, Except.ok (r.2.1, r.2.2.1, r.2.2.2.1, r.2.2.2.2.length))

/-! ## Operation sequences over the cache -/

/-- The cache-mutating operations reachable through the tool layer. -/
inductive CacheOp where
  | store (image : Png) (imageId : Option String) (saveHistory : Bool)
  | fetch (imageId : String)
  | undoOp (imageId : String)
  | delete (imageId : String)
  | configure (max_images max_memory_mb undo_levels : Option Int)
deriving DecidableEq, Repr

/-- State reached by one operation (a failing operation leaves the state
unchanged, as the Python exceptions propagate before any mutation). -/
def applyOp (s : CacheState) : CacheOp → CacheState
  | CacheOp.store img id sh => (store_image s img id sh).1
  | CacheOp.fetch id =>
      match get_image s id with
      | Except.ok r => r.1
      | Except.error _ => s
  | CacheOp.undoOp id =>
      match undo s id with
      | Except.ok r => r.1
      | Except.error _ => s
  | CacheOp.delete id =>
      match delete_image s id with
      | Except.ok s1 => s1
      | Except.error _ => s
  | CacheOp.configure mi mm ul => (server_configure_limits s mi mm ul).1

/-- State reached by a sequence of operations. -/
def applyOps (ops : List CacheOp) (s : CacheState) : CacheState :=
  List.foldl applyOp s ops

/-- State reached by a sequence of `store` calls (image, optional id,
save-history flag). -/
def applyStores (ops : List (Png × Option String × Bool)) (s : CacheState) : CacheState :=
  List.foldl (fun t o => (store_image t o.1 o.2.1 o.2.2).1) s ops

/-! ## Position resolution (server.py `_parse_position`, `_auto_adjust_position`)

Python floats are embedded as exact rationals and Python `int()` as
truncation toward zero. The character-level lexing of numeric tokens
(Python `float(v)` on the text between commas) is not modelled: a position
string is taken as already split into its comma-separated tokens, each a
number with its `%` / `px` / bare shape, with unparseable text mapped to
the `malformed` form (both malformation cases raise `ValueError`). -/

/-- Python `int()` on a rational: truncation toward zero. -/
def pyInt (q : ℚ) : Int :=
  if q < 0 then ⌈q⌉ else ⌊q⌋

/-- One comma-separated numeric token of a position string. -/
inductive PosToken where
  | percent (v : ℚ)
  | pixels (v : ℚ)
  | bare (v : ℚ)
deriving DecidableEq, Repr

/-- The `pos` argument of `_parse_position`: Python `None`, a float tuple, a
comma-free string (looked up among the named positions), a two-token string,
or a malformed string. -/
inductive PyPos where
  | none
  | tuple (px py : ℚ)
  | name (s : String)
  | pair (a b : PosToken)
  | malformed
deriving DecidableEq, Repr

/-- The `_NAMED_POSITIONS` table. -/
def namedPositions (s : String) : Option (ℚ × ℚ) :=
  match s with
  | "top-left" => Option.some (0.05, 0.05)
  | "top-center" => Option.some (0.5, 0.05)
  | "top-right" => Option.some (0.95, 0.05)
  | "center-left" => Option.some (0.05, 0.5)
  | "center" => Option.some (0.5, 0.5)
  | "center-right" => Option.some (0.95, 0.5)
  | "bottom-left" => Option.some (0.05, 0.95)
  | "bottom-center" => Option.some (0.5, 0.95)
  | "bottom-right" => Option.some (0.95, 0.95)
  | "top-left-quarter" => Option.some (0.25, 0.25)
  | "top-right-quarter" => Option.some (0.75, 0.25)
  | "bottom-left-quarter" => Option.some (0.25, 0.75)
  | "bottom-right-quarter" => Option.some (0.75, 0.75)
  | "top-left-edge" => Option.some (0.0, 0.0)
  | "top-right-edge" => Option.some (1.0, 0.0)
  | "bottom-left-edge" => Option.some (0.0, 1.0)
  | "bottom-right-edge" => Option.some (1.0, 1.0)
  | _ => Option.none

/-- The `_ANCHORS` table. -/
def anchorTable (s : String) : Option (ℚ × ℚ) :=
  match s with
  | "top-left" => Option.some (0.0, 0.0)
  | "top-center" => Option.some (0.5, 0.0)
  | "top-right" => Option.some (1.0, 0.0)
  | "center-left" => Option.some (0.0, 0.5)
  | "center" => Option.some (0.5, 0.5)
  | "center-right" => Option.some (1.0, 0.5)
  | "bottom-left" => Option.some (0.0, 1.0)
  | "bottom-center" => Option.some (0.5, 1.0)
  | "bottom-right" => Option.some (1.0, 1.0)
  | _ => Option.none

/-- The inner `parse_value` helper of `_parse_position`: percentage tokens
become fractions, `px` tokens are absolute, bare numbers are absolute
exactly when greater than 1. (Its `max_val` parameter is unused in the
source and dropped here.) Returns the value and the absoluteness flag. -/
def parse_value (t : PosToken) : ℚ × Bool :=
  match t with
  | PosToken.percent v => (v / 100, false)
  | PosToken.pixels v => (v, true)
  | PosToken.bare v => if 1 < v then (v, true) else (v, false)

/-- The final clamp of `_parse_position`: keep at least part of the element
visible on each axis. -/
def boundsClampPoint (x y image_width image_height element_width element_height : Int) :
    Int × Int :=
  (max (-element_width + 10) (min x (image_width - 10)),
   max (-element_height + 10) (min y (image_height - 10)))

/-- The tail of `_parse_position` after a value pair is obtained: convert
fractions to pixels (absolute values pass through `int()` unscaled), apply
the anchor adjustment (unknown anchors default to center), add the offset,
and clamp to bounds. -/
def finishPosition (px py : ℚ) (is_absolute : Bool)
    (image_width image_height element_width element_height : Int)
    (anchor : String) (offset_x offset_y : Int) : Int × Int :=
  let x0 : Int := if is_absolute then pyInt px else pyInt (px * image_width)
  let y0 : Int := if is_absolute then pyInt py else pyInt (py * image_height)
  let a := (anchorTable anchor).getD (0.5, 0.5)
  let x1 := x0 - pyInt (element_width * a.1)
  let y1 := y0 - pyInt (element_height * a.2)
  let x2 := x1 + offset_x
  let y2 := y1 + offset_y
  boundsClampPoint x2 y2 image_width image_height element_width element_height

/-- Embedding of `_parse_position`. `None` returns `(0, 0)` immediately; a
tuple is absolute when either component exceeds 1 (its components are never
rescaled); a comma-free string must be a named position; a two-token string
follows `parse_value`, rescaling any fractional component by the canvas
when the other is absolute; malformed input raises `ValueError`. -/
def _parse_position (pos : PyPos) (image_width image_height : Int)
    (element_width element_height : Int) (anchor : String)
    (offset_x offset_y : Int) : Except String (Int × Int) :=
  match pos with
  | PyPos.none => Except.ok (0, 0)
  | PyPos.tuple px py =>
      let is_absolute := decide (1 < px) || decide (1 < py)
      Except.ok (finishPosition px py is_absolute image_width image_height
        element_width element_height anchor offset_x offset_y)
  | PyPos.name s =>
      match namedPositions s with
      | Option.some f =>
          Except.ok (finishPosition f.1 f.2 false image_width image_height
            element_width element_height anchor offset_x offset_y)
      | Option.none => Except.error "Invalid position format"
  | PyPos.pair a b =>
      let r1 := parse_value a
      let r2 := parse_value b
      let is_absolute := r1.2 || r2.2
      let px := if is_absolute && !r1.2 then r1.1 * image_width else r1.1
      let py := if is_absolute && !r2.2 then r2.1 * image_height else r2.1
      Except.ok (finishPosition px py is_absolute image_width image_height
        element_width element_height anchor offset_x offset_y)
  | PyPos.malformed => Except.error "Invalid position format"

/-- Embedding of `_auto_adjust_position`: force full containment within the
canvas at the given padding. -/
def _auto_adjust_position (x y width height image_width image_height padding : Int) :
    Int × Int :=
  (max padding (min x (image_width - width - padding)),
   max padding (min y (image_height - height - padding)))

/-! ## Concrete scenario states for witnesses and counterexamples -/

/-- A small 2 by 2 image whose encoding is 1 byte long. -/
def pngA : Png := ⟨2, 2, [1]⟩

/-- A small 3 by 3 image whose encoding is 2 bytes long. -/
def pngB : Png := ⟨3, 3, [2, 2]⟩

/-- A small 4 by 4 image whose encoding is 3 bytes long. -/
def pngC : Png := ⟨4, 4, [3, 3, 3]⟩

/-- Result of storing under a caller-supplied id that was never resident:
the id is in the byte store but absent from the LRU order. -/
def c2Orphan : CacheState :=
  (store_image (initState 50 500 10) pngA (Option.some "a") true).1

/-- Result of one fresh (minted-id) store on an empty session. -/
def c2Fresh : CacheState :=
  (store_image (initState 50 500 10) pngA Option.none true).1

/-- Fresh store of a 2 by 2 image; the minted id is "img_1". -/
def c4s1 : CacheState :=
  (store_image (initState 50 500 10) pngA Option.none true).1

/-- Overwrite of "img_1" with a 3 by 3 image, saving history. -/
def c4s2 : CacheState :=
  (store_image c4s1 pngB (Option.some "img_1") true).1

/-- State after one undo on "img_1". -/
def c4s3 : CacheState :=
  match undo c4s2 "img_1" with
  | Except.ok r => r.1
  | Except.error _ => c4s2

/-- Fresh store of image A on an empty session (id "img_1"). -/
def c5s1 : CacheState :=
  (store_image (initState 50 500 10) pngA Option.none true).1

/-- Overwrite of "img_1" with image B, saving history. -/
def c5s2 : CacheState :=
  (store_image c5s1 pngB (Option.some "img_1") true).1

/-- Overwrite of "img_1" with image C, saving history. -/
def c5s3 : CacheState :=
  (store_image c5s2 pngC (Option.some "img_1") true).1

/-- State after the first undo on "img_1". -/
def c5s4 : CacheState :=
  match undo c5s3 "img_1" with
  | Except.ok r => r.1
  | Except.error _ => c5s3

/-- State after the second undo on "img_1". -/
def c5s5 : CacheState :=
  match undo c5s4 "img_1" with
  | Except.ok r => r.1
  | Except.error _ => c5s4

/-- A session holding one stored image, used to exercise limit validation. -/
def c7State : CacheState :=
  (store_image (initState 50 500 10) pngC Option.none true).1

/-- Well-formedness linking the history map to the store: every id with an
undo stack is resident, and the history map has no duplicate keys. This
holds initially and is preserved by every store operation. -/
def HistWF (s : CacheState) : Prop :=
  dictKeys s.imageHistory ⊆ dictKeys s.imageStore ∧ (dictKeys s.imageHistory).Nodup

/-- The bounded-history invariant: every undo stack in the history map has
depth at most the current undoLevels. -/
def DepthWF (s : CacheState) : Prop :=
  ∀ p ∈ s.imageHistory, (Prod.snd p).length ≤ s.undoLevels

/-- A session with undoLevels 1 where "img_1" holds image B with the full
one-deep history stack [A]. -/
def c6s : CacheState :=
  (store_image (store_image (initState 50 500 1) pngA Option.none true).1
    pngB (Option.some "img_1") true).1

/-! ## Dictionary and memory lemmas -/

theorem dictGet_set_self {α : Type} (d : List (String × α)) (k : String) (v : α) :
    dictGet (dictSet d k v) k = Option.some v := by
  induction d with
  | nil => simp [dictGet, dictSet]
  | cons p t ih =>
      obtain ⟨k1, v1⟩ := p
      by_cases h : k1 = k <;> simp [dictGet, dictSet, h, ih]

theorem dictGet_set_ne {α : Type} (d : List (String × α)) (k k1 : String) (v : α)
    (h : k1 ≠ k) : dictGet (dictSet d k v) k1 = dictGet d k1 := by
  induction d with
  | nil => simp [dictGet, dictSet, Ne.symm h]
  | cons p t ih =>
      obtain ⟨k2, v2⟩ := p
      by_cases h2 : k2 = k
      · subst h2
        simp [dictGet, dictSet, Ne.symm h]
      · simp only [dictSet, if_neg h2, dictGet]
        by_cases h3 : k2 = k1 <;> simp [h3, ih]

theorem dictGet_erase_ne {α : Type} (d : List (String × α)) (k k1 : String)
    (h : k1 ≠ k) : dictGet (dictErase d k) k1 = dictGet d k1 := by
  induction d with
  | nil => simp [dictErase]
  | cons p t ih =>
      obtain ⟨k2, v2⟩ := p
      by_cases h2 : k2 = k
      · subst h2
        simp [dictErase, dictGet, Ne.symm h]
      · simp only [dictErase, if_neg h2, dictGet]
        by_cases h3 : k2 = k1 <;> simp [h3, ih]

theorem mem_of_dictGet_eq_some {α : Type} (d : List (String × α)) (k : String) (v : α)
    (h : dictGet d k = Option.some v) : (k, v) ∈ d := by
  induction d with
  | nil => simp [dictGet] at h
  | cons p t ih =>
      obtain ⟨k1, v1⟩ := p
      by_cases h1 : k1 = k
      · subst h1
        simp [dictGet] at h
        simp [h]
      · simp [dictGet, h1] at h
        simp [ih h]

theorem mem_dictSet {α : Type} (d : List (String × α)) (k : String) (v : α) (p : String × α)
    (h : p ∈ dictSet d k v) : p = (k, v) ∨ p ∈ d := by
  induction d with
  | nil => simp [dictSet] at h; simp [h]
  | cons q t ih =>
      obtain ⟨k1, v1⟩ := q
      by_cases h1 : k1 = k
      · simp [dictSet, h1] at h
        rcases h with h | h <;> simp [h]
      · simp [dictSet, h1] at h
        rcases h with h | h
        · simp [h]
        · rcases ih h with h2 | h2 <;> simp [h2]

theorem mem_dictErase {α : Type} (d : List (String × α)) (k : String) (p : String × α)
    (h : p ∈ dictErase d k) : p ∈ d := by
  induction d with
  | nil => simp [dictErase] at h
  | cons q t ih =>
      obtain ⟨k1, v1⟩ := q
      by_cases h1 : k1 = k
      · simp [dictErase, h1] at h
        simp [h]
      · simp [dictErase, h1] at h
        rcases h with h | h
        · simp [h]
        · simp [ih h]

theorem dictKeys_erase {α : Type} (d : List (String × α)) (k : String) :
    dictKeys (dictErase d k) = (dictKeys d).erase k := by
  induction d with
  | nil => simp [dictErase, dictKeys]
  | cons q t ih =>
      obtain ⟨k1, v1⟩ := q
      by_cases h1 : k1 = k
      · subst h1
        simp [dictErase, dictKeys, List.erase_cons_head]
      · simp only [dictKeys, List.map] at ih
        simp [dictErase, dictKeys, h1, List.erase_cons, ih]

theorem dictKeys_set {α : Type} (d : List (String × α)) (k : String) (v : α) :
    dictKeys (dictSet d k v) =
      if k ∈ dictKeys d then dictKeys d else dictKeys d ++ [k] := by
  induction d with
  | nil => simp [dictSet, dictKeys]
  | cons q t ih =>
      obtain ⟨k1, v1⟩ := q
      by_cases h1 : k1 = k
      · subst h1
        simp [dictSet, dictKeys]
      · have hne : ¬k = k1 := fun hh => h1 hh.symm
        simp only [dictKeys] at ih
        simp only [dictSet, if_neg h1, dictKeys, List.map_cons, ih]
        by_cases h2 : k ∈ List.map Prod.fst t
        · simp [h2, hne]
        · simp [h2, hne]

theorem dictErase_length_le {α : Type} (d : List (String × α)) (k : String) :
    (dictErase d k).length ≤ d.length := by
  induction d with
  | nil => simp [dictErase]
  | cons q t ih =>
      obtain ⟨k1, v1⟩ := q
      by_cases h1 : k1 = k
      · simp only [dictErase, if_pos h1]
        simp
      · simp only [dictErase, if_neg h1, List.length_cons]
        omega

/-- The byte-count guard coincides with the rational megabyte comparison
written in the source. -/
theorem memory_exceeded_iff (s : CacheState) :
    memory_exceeded s = true ↔ (s.maxMemoryMB : ℚ) < get_total_memory_mb s := by
  have hpos : (0 : ℚ) < 1024 * 1024 := by norm_num
  rw [memory_exceeded, decide_eq_true_iff, get_total_memory_mb,
    lt_div_iff₀ hpos]
  constructor
  · intro h
    exact_mod_cast h
  · intro h
    exact_mod_cast h

/-! ## Geometry resolver theorems -/

theorem boundsClampPoint_mem (x y iw ih ew eh : Int) (hw : 20 ≤ ew + iw)
    (hh : 20 ≤ eh + ih) :
    (-ew + 10 ≤ (boundsClampPoint x y iw ih ew eh).1 ∧
      (boundsClampPoint x y iw ih ew eh).1 ≤ iw - 10) ∧
    (-eh + 10 ≤ (boundsClampPoint x y iw ih ew eh).2 ∧
      (boundsClampPoint x y iw ih ew eh).2 ≤ ih - 10) := by
  simp only [boundsClampPoint]
  refine ⟨⟨?_, ?_⟩, ⟨?_, ?_⟩⟩ <;> (simp [max_def, min_def]; split_ifs <;> omega)

theorem finishPosition_eq_clamp (px py : ℚ) (b : Bool) (iw ih ew eh : Int)
    (a : String) (ox oy : Int) :
    ∃ x0 y0, finishPosition px py b iw ih ew eh a ox oy
      = boundsClampPoint x0 y0 iw ih ew eh :=
  ⟨_, _, rfl⟩

/-- C8 (amended): for every position expression other than the absent one,
whenever the resolver succeeds and the clamp interval is nonempty on each
axis (element plus canvas extent at least 20 pixels), the returned
coordinates satisfy x in [-elemW+10, canvasW-10] and y in
[-elemH+10, canvasH-10]. (As originally stated the claim fails: when
elemW + canvasW < 20 the lower clamp bound exceeds the upper one and the
result can land above canvasW-10, and the absent position bypasses the
clamp entirely.) -/
theorem resolve_keeps_ten_pixels_on_canvas (pos : PyPos) (iw ih ew eh : Int)
    (anchor : String) (ox oy x y : Int)
    (hpos : pos ≠ PyPos.none) (hw : 20 ≤ ew + iw) (hh : 20 ≤ eh + ih)
    (hres : _parse_position pos iw ih ew eh anchor ox oy = Except.ok (x, y)) :
    (-ew + 10 ≤ x ∧ x ≤ iw - 10) ∧ (-eh + 10 ≤ y ∧ y ≤ ih - 10) := by
  cases pos with
  | none => exact absurd rfl hpos
  | tuple px py =>
      simp only [_parse_position, Except.ok.injEq] at hres
      obtain ⟨x0, y0, hfe⟩ := finishPosition_eq_clamp px py
        (decide (1 < px) || decide (1 < py)) iw ih ew eh anchor ox oy
      rw [hfe] at hres
      have h1 := boundsClampPoint_mem x0 y0 iw ih ew eh hw hh
      rw [hres] at h1
      exact h1
  | name s =>
      rcases hnp : namedPositions s with _ | f
      · simp [_parse_position, hnp] at hres
      · simp only [_parse_position, hnp, Except.ok.injEq] at hres
        obtain ⟨x0, y0, hfe⟩ := finishPosition_eq_clamp f.1 f.2 false iw ih ew eh anchor ox oy
        rw [hfe] at hres
        have h1 := boundsClampPoint_mem x0 y0 iw ih ew eh hw hh
        rw [hres] at h1
        exact h1
  | pair a b =>
      simp only [_parse_position, Except.ok.injEq] at hres
      obtain ⟨x0, y0, hfe⟩ := finishPosition_eq_clamp _ _ _ iw ih ew eh anchor ox oy
      rw [hfe] at hres
      have h1 := boundsClampPoint_mem x0 y0 iw ih ew eh hw hh
      rw [hres] at h1
      exact h1
  | malformed => simp [_parse_position] at hres

theorem resolve_keeps_ten_pixels_on_canvas_witness :
    (PyPos.name "center" ≠ PyPos.none) ∧ (20 ≤ (0 : Int) + 400) ∧ (20 ≤ (0 : Int) + 300) ∧
    (_parse_position (PyPos.name "center") 400 300 0 0 "center" 0 0 = Except.ok (200, 150)) ∧
    ((-(0 : Int) + 10 ≤ 200 ∧ (200 : Int) ≤ 400 - 10) ∧
      (-(0 : Int) + 10 ≤ 150 ∧ (150 : Int) ≤ 300 - 10)) :=
  ⟨by decide, by decide, by decide,
    by norm_num [_parse_position, namedPositions, finishPosition, pyInt, anchorTable,
      boundsClampPoint],
    resolve_keeps_ten_pixels_on_canvas (PyPos.name "center") 400 300 0 0 "center" 0 0 200 150
      (by decide) (by decide) (by decide)
      (by norm_num [_parse_position, namedPositions, finishPosition, pyInt, anchorTable,
        boundsClampPoint])⟩

/-- C8 counterexample: on a 5 by 5 canvas with a zero-size element the
resolver returns x = 10, which exceeds canvasW - 10 = -5, refuting the
claimed bound for all canvas dimensions. -/
theorem resolve_bounds_claim_counterexample :
    _parse_position (PyPos.name "center") 5 5 0 0 "center" 0 0 = Except.ok (10, 10) ∧
    ¬((10 : Int) ≤ 5 - 10) :=
  ⟨by norm_num [_parse_position, namedPositions, finishPosition, pyInt, anchorTable,
      boundsClampPoint],
    by decide⟩

theorem clamp_axis_idem (a b v : Int) : max a (min (max a (min v b)) b) = max a (min v b) := by
  rcases le_total a b with h | h <;> rcases le_total v b with h2 | h2 <;>
    simp [max_def, min_def] <;> split_ifs <;> omega

/-- C9: both the resolver's final bounds clamp and the auto-adjust helper
are idempotent: applying either a second time to its own output returns the
same coordinates, for every coordinate, element size, canvas size and (for
auto-adjust) padding. -/
theorem clamp_and_auto_adjust_idempotent :
    (∀ x y iw ih ew eh : Int,
      boundsClampPoint (boundsClampPoint x y iw ih ew eh).1
        (boundsClampPoint x y iw ih ew eh).2 iw ih ew eh
        = boundsClampPoint x y iw ih ew eh) ∧
    (∀ x y w h iw ih p : Int,
      _auto_adjust_position (_auto_adjust_position x y w h iw ih p).1
        (_auto_adjust_position x y w h iw ih p).2 w h iw ih p
        = _auto_adjust_position x y w h iw ih p) := by
  constructor
  · intro x y iw ih ew eh
    simp only [boundsClampPoint, Prod.mk.injEq]
    exact ⟨clamp_axis_idem _ _ _, clamp_axis_idem _ _ _⟩
  · intro x y w h iw ih p
    simp only [_auto_adjust_position, Prod.mk.injEq]
    exact ⟨clamp_axis_idem _ _ _, clamp_axis_idem _ _ _⟩

/-- C10: an absent position resolves to exactly (0, 0) for every canvas
size, element size, anchor and offset — the anchor adjustment, offset and
bounds clamp are all skipped. -/
theorem resolve_none_returns_origin (iw ih ew eh : Int) (anchor : String) (ox oy : Int) :
    _parse_position PyPos.none iw ih ew eh anchor ox oy = Except.ok (0, 0) :=
  rfl

/-! ## Eviction loop lemmas -/

theorem remove_image_internal_order_head (s : CacheState) (oldest : String) (rest : List String)
    (h : s.imageOrder = oldest :: rest) :
    (remove_image_internal s oldest).imageOrder = rest := by
  simp [remove_image_internal, h, List.erase_cons_head]

theorem evictLoop_pres (cond : CacheState → Bool) (P : CacheState → Prop)
    (hP : ∀ t oldest rest, t.imageOrder = oldest :: rest → P t →
      P (remove_image_internal t oldest)) :
    ∀ (q : List String) (s : CacheState), q = s.imageOrder → P s →
      P (evictLoop cond q s).1 := by
  intro q
  induction q with
  | nil => intro s hq hs; simpa [evictLoop] using hs
  | cons oldest rest ih =>
      intro s hq hs
      by_cases hc : cond s
      · simp only [evictLoop, hc, if_true]
        exact ih _ (remove_image_internal_order_head s oldest rest hq.symm).symm
          (hP s oldest rest hq.symm hs)
      · simpa [evictLoop, hc] using hs

theorem evictLoop_order (cond : CacheState → Bool) :
    ∀ (q : List String) (s : CacheState), q = s.imageOrder →
      (evictLoop cond q s).2 ++ (evictLoop cond q s).1.imageOrder = s.imageOrder := by
  intro q
  induction q with
  | nil => intro s hq; simp [evictLoop, ← hq]
  | cons oldest rest ih =>
      intro s hq
      by_cases hc : cond s
      · have hro := remove_image_internal_order_head s oldest rest hq.symm
        have hrec := ih (remove_image_internal s oldest) hro.symm
        simp only [evictLoop, hc, if_true, List.cons_append]
        rw [hrec, hro]
        exact hq
      · simp [evictLoop, hc]

theorem evictLoop_post (cond : CacheState → Bool) :
    ∀ (q : List String) (s : CacheState), q = s.imageOrder →
      cond (evictLoop cond q s).1 = false ∨ (evictLoop cond q s).1.imageOrder = [] := by
  intro q
  induction q with
  | nil => intro s hq; right; simp [evictLoop, ← hq]
  | cons oldest rest ih =>
      intro s hq
      by_cases hc : cond s
      · simp only [evictLoop, hc, if_true]
        exact ih _ (remove_image_internal_order_head s oldest rest hq.symm).symm
      · left
        simp [evictLoop, hc]

theorem evictLoop_store_length_le (cond : CacheState → Bool) :
    ∀ (q : List String) (s : CacheState),
      (evictLoop cond q s).1.imageStore.length ≤ s.imageStore.length := by
  intro q
  induction q with
  | nil => intro s; simp [evictLoop]
  | cons oldest rest ih =>
      intro s
      by_cases hc : cond s
      · simp only [evictLoop, hc, if_true]
        have h1 : (remove_image_internal s oldest).imageStore.length ≤ s.imageStore.length := by
          simpa [remove_image_internal] using dictErase_length_le s.imageStore oldest
        exact le_trans (ih _) h1
      · simp [evictLoop, hc]

theorem evictLoop_untouched (cond : CacheState → Bool) (id : String) :
    ∀ (q : List String) (s : CacheState), q = s.imageOrder → id ∉ s.imageOrder →
      dictGet (evictLoop cond q s).1.imageStore id = dictGet s.imageStore id ∧
      dictGet (evictLoop cond q s).1.imageHistory id = dictGet s.imageHistory id ∧
      id ∉ (evictLoop cond q s).1.imageOrder := by
  intro q
  induction q with
  | nil => intro s hq hmem; exact ⟨rfl, rfl, by simpa [evictLoop] using hmem⟩
  | cons oldest rest ih =>
      intro s hq hmem
      by_cases hc : cond s
      · have hne : id ≠ oldest := by
          intro hh
          exact hmem (by rw [← hq, hh]; exact List.mem_cons_self _ _)
        have hro := remove_image_internal_order_head s oldest rest hq.symm
        have hmem2 : id ∉ (remove_image_internal s oldest).imageOrder := by
          rw [hro]
          intro hh
          exact hmem (by rw [← hq]; exact List.mem_cons_of_mem _ hh)
        have hrec := ih (remove_image_internal s oldest) hro.symm hmem2
        simp only [evictLoop, hc, if_true]
        refine ⟨?_, ?_, hrec.2.2⟩
        · rw [hrec.1]
          simpa [remove_image_internal] using dictGet_erase_ne s.imageStore oldest id hne
        · rw [hrec.2.1]
          simpa [remove_image_internal] using dictGet_erase_ne s.imageHistory oldest id hne
      · simp only [evictLoop, hc, if_false]
        exact ⟨rfl, rfl, by simpa using hmem⟩

theorem evict_if_needed_pres (P : CacheState → Prop)
    (hP : ∀ t oldest rest, t.imageOrder = oldest :: rest → P t →
      P (remove_image_internal t oldest))
    (s : CacheState) (hs : P s) : P (evict_if_needed s).1 := by
  simp only [evict_if_needed]
  exact evictLoop_pres _ P hP _ _ rfl (evictLoop_pres _ P hP _ _ rfl hs)

theorem evict_if_needed_order (s : CacheState) :
    (evict_if_needed s).2 ++ (evict_if_needed s).1.imageOrder = s.imageOrder := by
  simp only [evict_if_needed]
  rw [List.append_assoc, evictLoop_order _ _ _ rfl, evictLoop_order _ _ _ rfl]

theorem evict_if_needed_untouched (id : String) (s : CacheState) (hmem : id ∉ s.imageOrder) :
    dictGet (evict_if_needed s).1.imageStore id = dictGet s.imageStore id ∧
    dictGet (evict_if_needed s).1.imageHistory id = dictGet s.imageHistory id ∧
    id ∉ (evict_if_needed s).1.imageOrder := by
  simp only [evict_if_needed]
  have h1 := evictLoop_untouched count_exceeded id s.imageOrder s rfl hmem
  have h2 := evictLoop_untouched memory_exceeded id _ _ rfl h1.2.2
  exact ⟨h2.1.trans h1.1, h2.2.1.trans h1.2.1, h2.2.2⟩

theorem evict_if_needed_limits (s : CacheState) :
    (evict_if_needed s).1.maxImages = s.maxImages ∧
    (evict_if_needed s).1.maxMemoryMB = s.maxMemoryMB ∧
    (evict_if_needed s).1.undoLevels = s.undoLevels := by
  refine evict_if_needed_pres
    (fun t => t.maxImages = s.maxImages ∧ t.maxMemoryMB = s.maxMemoryMB ∧
      t.undoLevels = s.undoLevels) ?_ s ⟨rfl, rfl, rfl⟩
  intro t _ _ _ ht
  simpa [remove_image_internal] using ht

theorem storeNoEvict_some_order (s : CacheState) (img : Png) (id : String) (sh : Bool) :
    (storeNoEvict s img (Option.some id) sh).1.imageOrder =
      if id ∈ s.imageOrder then s.imageOrder.erase id ++ [id] else s.imageOrder := by
  rcases hget : dictGet s.imageStore id with _ | cur <;> cases sh <;>
    (simp [storeNoEvict, hget, touch_image]; split_ifs <;> rfl)

/-! ## Claim theorems: LRU order (C2, C3) -/

/-- C2 (amended): fetching or overwrite-storing an identifier that is
present in the LRU order moves it to the tail, and an eviction pass removes
identifiers from the head of the order (the evicted ids form a prefix of the
pre-eviction order, the survivors the corresponding suffix) — so an
identifier touched later survives every eviction that leaves any entry
resident, relative to untouched older entries. (As originally stated the
claim fails: an identifier stored under a caller-supplied fresh id is
resident but never enters the LRU order, and fetching it succeeds without
moving it to the tail.) -/
theorem touch_moves_to_tail_and_eviction_takes_head :
    (∀ (s : CacheState) (id : String) (p : Png),
      dictGet s.imageStore id = Option.some p → id ∈ s.imageOrder →
      get_image s id = Except.ok (touch_image s id, p) ∧
      (touch_image s id).imageOrder = s.imageOrder.erase id ++ [id]) ∧
    (∀ (s : CacheState) (img : Png) (id : String) (sh : Bool), id ∈ s.imageOrder →
      (storeNoEvict s img (Option.some id) sh).1.imageOrder
        = s.imageOrder.erase id ++ [id]) ∧
    (∀ s : CacheState,
      (evict_if_needed s).2 ++ (evict_if_needed s).1.imageOrder = s.imageOrder) := by
  refine ⟨?_, ?_, evict_if_needed_order⟩
  · intro s id p hget hmem
    exact ⟨by simp [get_image, hget], by simp [touch_image, hmem]⟩
  · intro s img id sh hmem
    simp [storeNoEvict_some_order, hmem]

theorem touch_moves_to_tail_and_eviction_takes_head_witness :
    (dictGet c2Fresh.imageStore "img_1" = Option.some pngA) ∧
    ("img_1" ∈ c2Fresh.imageOrder) ∧
    (get_image c2Fresh "img_1" = Except.ok (touch_image c2Fresh "img_1", pngA) ∧
      (touch_image c2Fresh "img_1").imageOrder
        = c2Fresh.imageOrder.erase "img_1" ++ ["img_1"]) ∧
    ((storeNoEvict c2Fresh pngB (Option.some "img_1") true).1.imageOrder
      = c2Fresh.imageOrder.erase "img_1" ++ ["img_1"]) ∧
    ((evict_if_needed c2Fresh).2 ++ (evict_if_needed c2Fresh).1.imageOrder
      = c2Fresh.imageOrder) :=
  ⟨by decide, by decide,
    touch_moves_to_tail_and_eviction_takes_head.1 c2Fresh "img_1" pngA (by decide) (by decide),
    touch_moves_to_tail_and_eviction_takes_head.2.1 c2Fresh pngB "img_1" true (by decide),
    touch_moves_to_tail_and_eviction_takes_head.2.2 c2Fresh⟩

/-- C2 counterexample: after storing under the caller-supplied fresh id
"a", the fetch succeeds but the LRU order is empty — the touched identifier
is not at the tail of the order, refuting the claim for all successful
fetches. -/
theorem lru_touch_claim_counterexample :
    get_image c2Orphan "a" = Except.ok (c2Orphan, pngA) ∧
    c2Orphan.imageOrder = [] := by
  exact ⟨by decide, by decide⟩

/-- C3 (amended): a store call supplying an identifier that is not
currently resident stores the bytes and metadata under that id, but the id
is NOT appended to the LRU order (the touch is a no-op for ids outside the
order), and no undo-history entry is created for it. (As originally stated
the claim fails: the id does not end up at the tail of the LRU order.) -/
theorem store_unregistered_id_keeps_it_off_lru (s : CacheState) (img : Png) (id : String)
    (sh : Bool) (hres : dictGet s.imageStore id = Option.none) (hord : id ∉ s.imageOrder) :
    dictGet (store_image s img (Option.some id) sh).1.imageStore id = Option.some img ∧
    id ∉ (store_image s img (Option.some id) sh).1.imageOrder ∧
    dictGet (store_image s img (Option.some id) sh).1.imageHistory id
      = dictGet s.imageHistory id := by
  have h3 : (storeNoEvict s img (Option.some id) sh).1 =
      { s with imageStore := dictSet s.imageStore id img,
               imageMetadata := dictSet s.imageMetadata id (img.width, img.height) } := by
    cases sh <;> simp [storeNoEvict, hres, touch_image, hord]
  simp only [store_image, h3]
  have hu := evict_if_needed_untouched id
    { s with imageStore := dictSet s.imageStore id img,
             imageMetadata := dictSet s.imageMetadata id (img.width, img.height) }
    (by simpa using hord)
  refine ⟨?_, hu.2.2, ?_⟩
  · rw [hu.1]
    simpa using dictGet_set_self s.imageStore id img
  · rw [hu.2.1]

theorem store_unregistered_id_keeps_it_off_lru_witness :
    (dictGet (initState 50 500 10).imageStore "b" = Option.none) ∧
    ("b" ∉ (initState 50 500 10).imageOrder) ∧
    (dictGet (store_image (initState 50 500 10) pngB (Option.some "b") true).1.imageStore "b"
        = Option.some pngB ∧
      "b" ∉ (store_image (initState 50 500 10) pngB (Option.some "b") true).1.imageOrder ∧
      dictGet (store_image (initState 50 500 10) pngB (Option.some "b") true).1.imageHistory "b"
        = dictGet (initState 50 500 10).imageHistory "b") :=
  ⟨by decide, by decide,
    store_unregistered_id_keeps_it_off_lru (initState 50 500 10) pngB "b" true
      (by decide) (by decide)⟩

/-- C3 counterexample: storing under the fresh caller-supplied id "a"
leaves the LRU order empty even though the image is resident — the id is
not present at the tail of the LRU order as claimed. -/
theorem store_fresh_supplied_id_counterexample :
    dictGet c2Orphan.imageStore "a" = Option.some pngA ∧
    c2Orphan.imageOrder = [] ∧
    dictGet c2Orphan.imageHistory "a" = Option.none := by
  exact ⟨by decide, by decide, by decide⟩

/-! ## Claim theorems: undo (C4, C5) -/

/-- C4 (amended): undo fails exactly when the undo stack of the id is
absent or empty; otherwise it pops the most recent snapshot and installs it
as the current bytes — but the stored width/height metadata are left
unchanged, not recomputed from the restored bytes (the LRU order and the
limits are unchanged too). (As originally stated the claim fails: the
metadata map keeps the pre-undo dimensions.) -/
theorem undo_pops_latest_and_metadata_unchanged (s : CacheState) (id : String) :
    ((∃ e, undo s id = Except.error e) ↔
      (dictGet s.imageHistory id = Option.none ∨
        dictGet s.imageHistory id = Option.some [])) ∧
    (∀ (h0 : Png) (t : List Png), dictGet s.imageHistory id = Option.some (h0 :: t) →
      undo s id = Except.ok
        ({ s with imageStore := dictSet s.imageStore id
                    ((h0 :: t).getLast (List.cons_ne_nil h0 t)),
                  imageHistory := dictSet s.imageHistory id (h0 :: t).dropLast },
         (h0 :: t).dropLast.length)) ∧
    (∀ (s1 : CacheState) (n : Nat), undo s id = Except.ok (s1, n) →
      s1.imageMetadata = s.imageMetadata ∧ s1.imageOrder = s.imageOrder ∧
      s1.undoLevels = s.undoLevels) := by
  refine ⟨⟨?_, ?_⟩, ?_, ?_⟩
  · intro ⟨e, he⟩
    rcases hh : dictGet s.imageHistory id with _ | hist
    · exact Or.inl rfl
    · rcases hist with _ | ⟨h0, t⟩
      · exact Or.inr rfl
      · simp [undo, hh] at he
  · intro h
    rcases h with h | h <;>
      exact ⟨"No undo history available", by simp [undo, h]⟩
  · intro h0 t hh
    simp [undo, hh]
  · intro s1 n hok
    rcases hh : dictGet s.imageHistory id with _ | hist
    · simp [undo, hh] at hok
    · rcases hist with _ | ⟨h0, t⟩
      · simp [undo, hh] at hok
      · simp only [undo, hh, Except.ok.injEq, Prod.mk.injEq] at hok
        rw [← hok.1]
        exact ⟨rfl, rfl, rfl⟩

theorem undo_pops_latest_witness :
    (dictGet c4s2.imageHistory "img_1" = Option.some [pngA]) ∧
    ∃ (s1 : CacheState) (n : Nat), undo c4s2 "img_1" = Except.ok (s1, n) ∧
      dictGet s1.imageStore "img_1" = Option.some pngA ∧
      s1.imageMetadata = c4s2.imageMetadata := by
  refine ⟨by decide, ?_⟩
  have h := (undo_pops_latest_and_metadata_unchanged c4s2 "img_1").2.1 pngA [] (by decide)
  exact ⟨_, _, h, by decide, by decide⟩

/-- C4 counterexample: after overwriting the 2 by 2 image A with the 3 by 3
image B and undoing, the current bytes decode as 2 by 2 but the stored
metadata still reads (3, 3) — the dimensions are not recomputed from the
restored bytes. -/
theorem undo_stale_metadata_counterexample :
    dictGet c4s3.imageStore "img_1" = Option.some pngA ∧
    pngA.width = 2 ∧ pngA.height = 2 ∧
    dictGet c4s3.imageMetadata "img_1" = Option.some (3, 3) ∧
    dictGet c4s3.imageMetadata "img_1" ≠ Option.some (pngA.width, pngA.height) := by
  exact ⟨by decide, by decide, by decide, by decide, by decide⟩

/-- C5: storing new image A (seeding no history), overwriting with B then C
with history saving on, undo restores B, a second undo restores A, and a
third undo fails with the no-history error. -/
theorem undo_is_strictly_lifo :
    (store_image (initState 50 500 10) pngA Option.none true).2 = "img_1" ∧
    dictGet c5s1.imageHistory "img_1" = Option.none ∧
    dictGet c5s3.imageStore "img_1" = Option.some pngC ∧
    dictGet c5s3.imageHistory "img_1" = Option.some [pngA, pngB] ∧
    undo c5s3 "img_1" = Except.ok (c5s4, 1) ∧
    dictGet c5s4.imageStore "img_1" = Option.some pngB ∧
    undo c5s4 "img_1" = Except.ok (c5s5, 0) ∧
    dictGet c5s5.imageStore "img_1" = Option.some pngA ∧
    undo c5s5 "img_1" = Except.error "No undo history available" := by
  exact ⟨by decide, by decide, by decide, by decide, by decide, by decide, by decide,
    by decide, by decide⟩

/-! ## Claim theorems: limit configuration (C7) -/

/-- C7: the configurator accepts exactly the in-range values (maxImages at
least 1, maxMemoryMB at least 10, undoLevels between 1 and 100, each checked
only when provided); when any provided value is out of range the call
returns the invalid-limit error with the state completely unchanged (limits,
histories and residency intact), and when all provided values are in range
the storage-level configuration is applied. -/
theorem configure_limits_all_or_nothing (s : CacheState) (mi mm ul : Option Int) :
    (limits_out_of_range mi mm ul = false ↔
      ((∀ v ∈ mi, 1 ≤ v) ∧ (∀ v ∈ mm, 10 ≤ v) ∧ (∀ v ∈ ul, 1 ≤ v ∧ v ≤ 100))) ∧
    (limits_out_of_range mi mm ul = true →
      server_configure_limits s mi mm ul = (s, Except.error LimitError.invalidLimit)) ∧
    (limits_out_of_range mi mm ul = false →
      server_configure_limits s mi mm ul =
        ((configure_limits s (mi.map Int.toNat) (mm.map Int.toNat) (ul.map Int.toNat)).1,
          Except.ok
            ((configure_limits s (mi.map Int.toNat) (mm.map Int.toNat) (ul.map Int.toNat)).2.1,
             (configure_limits s (mi.map Int.toNat) (mm.map Int.toNat) (ul.map Int.toNat)).2.2.1,
             (configure_limits s (mi.map Int.toNat) (mm.map Int.toNat) (ul.map Int.toNat)).2.2.2.1,
             (configure_limits s (mi.map Int.toNat) (mm.map Int.toNat)
               (ul.map Int.toNat)).2.2.2.2.length))) := by
  refine ⟨?_, ?_, ?_⟩
  · rcases mi with _ | a <;> rcases mm with _ | b <;> rcases ul with _ | c <;>
      (simp [limits_out_of_range]; try omega)
  · intro h
    simp [server_configure_limits, h]
  · intro h
    simp [server_configure_limits, h]

theorem configure_limits_all_or_nothing_witness :
    (limits_out_of_range (Option.some 0) Option.none (Option.some 101) = true) ∧
    server_configure_limits c7State (Option.some 0) Option.none (Option.some 101)
      = (c7State, Except.error LimitError.invalidLimit) :=
  ⟨by decide,
    (configure_limits_all_or_nothing c7State (Option.some 0) Option.none
      (Option.some 101)).2.1 (by decide)⟩

/-! ## Bounded-limits invariant (C1) -/

theorem touch_image_eq (s : CacheState) (id : String) :
    touch_image s id =
      { s with imageOrder :=
          if id ∈ s.imageOrder then s.imageOrder.erase id ++ [id] else s.imageOrder } := by
  simp only [touch_image]
  split_ifs with hm <;> rfl

theorem mem_dictKeys_of_get {α : Type} (d : List (String × α)) (k : String) (v : α)
    (h : dictGet d k = Option.some v) : k ∈ dictKeys d :=
  List.mem_map_of_mem Prod.fst (mem_of_dictGet_eq_some d k v h)

theorem dictKeys_subset_set {α : Type} (d : List (String × α)) (k : String) (v : α) :
    dictKeys d ⊆ dictKeys (dictSet d k v) := by
  intro a ha
  rw [dictKeys_set]
  split_ifs
  · exact ha
  · exact List.mem_append_left _ ha

theorem histWF_init (mi mm ul : Nat) : HistWF (initState mi mm ul) := by
  constructor <;> simp [initState, dictKeys, HistWF]

theorem histWF_remove (s : CacheState) (id : String) (h : HistWF s) :
    HistWF (remove_image_internal s id) := by
  obtain ⟨hsub, hnd⟩ := h
  constructor
  · intro a ha
    simp only [remove_image_internal, dictKeys_erase] at ha ⊢
    have h2 := (List.Nodup.mem_erase_iff hnd).mp ha
    exact (List.mem_erase_of_ne h2.1).mpr (hsub h2.2)
  · simp only [remove_image_internal, dictKeys_erase]
    exact hnd.erase id

theorem histWF_storeNoEvict (s : CacheState) (img : Png) (oid : Option String) (sh : Bool)
    (h : HistWF s) : HistWF (storeNoEvict s img oid sh).1 := by
  obtain ⟨hsub, hnd⟩ := h
  rcases oid with _ | id
  · constructor
    · intro a ha
      simp only [storeNoEvict] at ha ⊢
      exact dictKeys_subset_set _ _ _ (hsub ha)
    · simpa [storeNoEvict] using hnd
  · rcases hget : dictGet s.imageStore id with _ | cur
    · constructor
      · intro a ha
        cases sh <;> simp only [storeNoEvict, hget, touch_image_eq] at ha ⊢ <;>
          exact dictKeys_subset_set _ _ _ (hsub ha)
      · cases sh <;> simpa [storeNoEvict, hget, touch_image_eq] using hnd
    · have hidmem : id ∈ dictKeys s.imageStore := mem_dictKeys_of_get _ _ _ hget
      cases sh
      · constructor
        · intro a ha
          simp only [storeNoEvict, hget, touch_image_eq] at ha ⊢
          exact dictKeys_subset_set _ _ _ (hsub ha)
        · simpa [storeNoEvict, hget, touch_image_eq] using hnd
      · constructor
        · intro a ha
          simp only [storeNoEvict, hget, touch_image_eq] at ha ⊢
          rw [dictKeys_set] at ha
          split_ifs at ha with hm
          · exact dictKeys_subset_set _ _ _ (hsub ha)
          · rcases List.mem_append.mp ha with h1 | h1
            · exact dictKeys_subset_set _ _ _ (hsub h1)
            · have : a = id := by simpa using h1
              subst this
              exact dictKeys_subset_set _ _ _ hidmem
        · simp only [storeNoEvict, hget, touch_image_eq]
          rw [dictKeys_set]
          split_ifs with hm
          · exact hnd
          · simp [List.nodup_append, hnd, hm]

theorem histWF_store_image (s : CacheState) (img : Png) (oid : Option String) (sh : Bool)
    (h : HistWF s) : HistWF (store_image s img oid sh).1 := by
  simp only [store_image]
  exact evict_if_needed_pres HistWF (fun t _ _ _ ht => histWF_remove t _ ht) _
    (histWF_storeNoEvict s img oid sh h)

theorem histWF_applyStores (ops : List (Png × Option String × Bool)) :
    ∀ s : CacheState, HistWF s → HistWF (applyStores ops s) := by
  induction ops with
  | nil => intro s hs; exact hs
  | cons o rest ih =>
      intro s hs
      exact ih _ (histWF_store_image s o.1 o.2.1 o.2.2 hs)

theorem imageHistory_nil_of_store_nil (s : CacheState) (h : HistWF s)
    (hs : s.imageStore = []) : s.imageHistory = [] := by
  have h1 : dictKeys s.imageHistory ⊆ ([] : List String) := by
    have := h.1
    rw [hs] at this
    simpa [dictKeys] using this
  have h2 : dictKeys s.imageHistory = [] := List.subset_nil.mp h1
  simpa [dictKeys] using h2

theorem evictLoop_pres_any (cond : CacheState → Bool) (P : CacheState → Prop)
    (hP : ∀ t id, P t → P (remove_image_internal t id)) :
    ∀ (q : List String) (s : CacheState), P s → P (evictLoop cond q s).1 := by
  intro q
  induction q with
  | nil => intro s hs; exact hs
  | cons oldest rest ih =>
      intro s hs
      by_cases hc : cond s
      · simp only [evictLoop, hc, if_true]
        exact ih _ (hP s oldest hs)
      · simpa [evictLoop, hc] using hs

theorem evictLoop_limits (cond : CacheState → Bool) (q : List String) (s : CacheState) :
    (evictLoop cond q s).1.maxImages = s.maxImages ∧
    (evictLoop cond q s).1.maxMemoryMB = s.maxMemoryMB ∧
    (evictLoop cond q s).1.undoLevels = s.undoLevels := by
  refine evictLoop_pres_any cond
    (fun t => t.maxImages = s.maxImages ∧ t.maxMemoryMB = s.maxMemoryMB ∧
      t.undoLevels = s.undoLevels) ?_ q s ⟨rfl, rfl, rfl⟩
  intro t id ht
  simpa [remove_image_internal] using ht

theorem storeNoEvict_limits (s : CacheState) (img : Png) (oid : Option String) (sh : Bool) :
    (storeNoEvict s img oid sh).1.maxImages = s.maxImages ∧
    (storeNoEvict s img oid sh).1.maxMemoryMB = s.maxMemoryMB ∧
    (storeNoEvict s img oid sh).1.undoLevels = s.undoLevels := by
  rcases oid with _ | id
  · exact ⟨rfl, rfl, rfl⟩
  · rcases hget : dictGet s.imageStore id with _ | cur <;> cases sh <;>
      simp [storeNoEvict, hget, touch_image_eq]

theorem store_image_limits (s : CacheState) (img : Png) (oid : Option String) (sh : Bool) :
    (store_image s img oid sh).1.maxImages = s.maxImages ∧
    (store_image s img oid sh).1.maxMemoryMB = s.maxMemoryMB ∧
    (store_image s img oid sh).1.undoLevels = s.undoLevels := by
  have h1 := storeNoEvict_limits s img oid sh
  have h2 := evict_if_needed_limits (storeNoEvict s img oid sh).1
  simp only [store_image]
  exact ⟨h2.1.trans h1.1, h2.2.1.trans h1.2.1, h2.2.2.trans h1.2.2⟩

theorem applyStores_limits (ops : List (Png × Option String × Bool)) :
    ∀ s : CacheState, (applyStores ops s).maxImages = s.maxImages ∧
      (applyStores ops s).maxMemoryMB = s.maxMemoryMB ∧
      (applyStores ops s).undoLevels = s.undoLevels := by
  induction ops with
  | nil => intro s; exact ⟨rfl, rfl, rfl⟩
  | cons o rest ih =>
      intro s
      have h1 := store_image_limits s o.1 o.2.1 o.2.2
      have h2 := ih (store_image s o.1 o.2.1 o.2.2).1
      simp only [applyStores, List.foldl_cons] at h2 ⊢
      exact ⟨h2.1.trans h1.1, h2.2.1.trans h1.2.1, h2.2.2.trans h1.2.2⟩

theorem evict_if_needed_post (v : CacheState)
    (hord : (evict_if_needed v).1.imageOrder ≠ []) :
    (evict_if_needed v).1.imageStore.length ≤ (evict_if_needed v).1.maxImages ∧
    totalMemoryBytes (evict_if_needed v).1
      ≤ (evict_if_needed v).1.maxMemoryMB * (1024 * 1024) := by
  obtain ⟨w, hw⟩ : ∃ w, (evictLoop count_exceeded v.imageOrder v).1 = w := ⟨_, rfl⟩
  obtain ⟨u, hu⟩ : ∃ u, (evictLoop memory_exceeded w.imageOrder w).1 = u := ⟨_, rfl⟩
  have hev : (evict_if_needed v).1 = u := by
    show (evictLoop memory_exceeded
      (evictLoop count_exceeded v.imageOrder v).1.imageOrder
      (evictLoop count_exceeded v.imageOrder v).1).1 = u
    rw [hw, hu]
  rw [hev] at hord ⊢
  by_cases hwo : w.imageOrder = []
  · exfalso
    have : u = w := by rw [← hu, hwo]; rfl
    rw [this] at hord
    exact hord hwo
  · have hcount := evictLoop_post count_exceeded v.imageOrder v rfl
    rw [hw] at hcount
    have hcw : count_exceeded w = false := by
      rcases hcount with h | h
      · exact h
      · exact absurd h hwo
    have hlenw : w.imageStore.length ≤ w.maxImages := by
      simp only [count_exceeded, decide_eq_false_iff_not] at hcw
      omega
    have hmem := evictLoop_post memory_exceeded w.imageOrder w rfl
    rw [hu] at hmem
    have hmu : memory_exceeded u = false := by
      rcases hmem with h | h
      · exact h
      · exact absurd h hord
    have hbytes : totalMemoryBytes u ≤ u.maxMemoryMB * (1024 * 1024) := by
      simp only [memory_exceeded, decide_eq_false_iff_not] at hmu
      omega
    have hlen2 : u.imageStore.length ≤ w.imageStore.length := by
      rw [← hu]
      exact evictLoop_store_length_le _ _ _
    have hlim : u.maxImages = w.maxImages := by
      rw [← hu]
      exact (evictLoop_limits memory_exceeded w.imageOrder w).1
    exact ⟨by rw [hlim]; omega, hbytes⟩

theorem get_total_memory_mb_le_of_bytes (s : CacheState) (mm : Nat)
    (h : totalMemoryBytes s ≤ mm * (1024 * 1024)) :
    get_total_memory_mb s ≤ (mm : ℚ) := by
  rw [get_total_memory_mb, div_le_iff₀ (by norm_num : (0 : ℚ) < 1024 * 1024)]
  exact_mod_cast h

/-- C1: for every sequence of store calls from a fresh session, whenever
the eviction pass could reach a fixed point (after the final store the LRU
order is nonempty, or the byte store is empty), the resident count is at
most maxImages and the total memory in megabytes is at most maxMemoryMB. -/
theorem store_sequence_respects_limits (mi mm ul : Nat)
    (ops : List (Png × Option String × Bool))
    (hfix : (applyStores ops (initState mi mm ul)).imageOrder ≠ [] ∨
      (applyStores ops (initState mi mm ul)).imageStore = []) :
    (applyStores ops (initState mi mm ul)).imageStore.length ≤ mi ∧
    get_total_memory_mb (applyStores ops (initState mi mm ul)) ≤ (mm : ℚ) := by
  have hlim := applyStores_limits ops (initState mi mm ul)
  have hwf := histWF_applyStores ops (initState mi mm ul) (histWF_init mi mm ul)
  rcases hfix with hord | hnil
  · rcases List.eq_nil_or_concat ops with rfl | ⟨L, b, rfl⟩
    · exact absurd rfl hord
    · have hsplit : applyStores (L.concat b) (initState mi mm ul)
          = (store_image (applyStores L (initState mi mm ul)) b.1 b.2.1 b.2.2).1 := by
        simp [applyStores, List.concat_eq_append, List.foldl_append]
      rw [hsplit] at hord hlim ⊢
      have hpost := evict_if_needed_post
        (storeNoEvict (applyStores L (initState mi mm ul)) b.1 b.2.1 b.2.2).1
        (by simpa [store_image] using hord)
      have hmi : (store_image (applyStores L (initState mi mm ul)) b.1 b.2.1 b.2.2).1.maxImages
          = mi := hlim.1
      have hmm2 : (store_image (applyStores L (initState mi mm ul)) b.1 b.2.1 b.2.2).1.maxMemoryMB
          = mm := hlim.2.1
      simp only [store_image] at hmi hmm2 ⊢
      constructor
      · exact hpost.1.trans (le_of_eq hmi)
      · apply get_total_memory_mb_le_of_bytes
        exact hpost.2.trans (le_of_eq (by rw [hmm2]))
  · constructor
    · simp [hnil]
    · have hh := imageHistory_nil_of_store_nil _ hwf hnil
      have hz : totalMemoryBytes (applyStores ops (initState mi mm ul)) = 0 := by
        simp [totalMemoryBytes, hnil, hh]
      rw [get_total_memory_mb, hz]
      simp

theorem store_sequence_respects_limits_witness :
    ((applyStores [(pngA, Option.none, true)] (initState 50 500 10)).imageOrder ≠ [] ∨
      (applyStores [(pngA, Option.none, true)] (initState 50 500 10)).imageStore = []) ∧
    ((applyStores [(pngA, Option.none, true)] (initState 50 500 10)).imageStore.length ≤ 50 ∧
      get_total_memory_mb (applyStores [(pngA, Option.none, true)] (initState 50 500 10))
        ≤ (500 : ℚ)) :=
  ⟨Or.inl (by decide),
    store_sequence_respects_limits 50 500 10 [(pngA, Option.none, true)] (Or.inl (by decide))⟩

/-! ## Bounded history depth (C6) -/

theorem dictGet_map_value {α β : Type} (d : List (String × α)) (f : α → β) (k : String) :
    dictGet (d.map (fun p => (p.1, f p.2))) k = (dictGet d k).map f := by
  induction d with
  | nil => simp [dictGet]
  | cons q t ih =>
      obtain ⟨k1, v1⟩ := q
      by_cases h1 : k1 = k <;> simp [dictGet, h1, ih]

theorem trimHistory_length_le (ul : Nat) (h : List Png) :
    (trimHistory ul h).length ≤ ul := by
  induction h with
  | nil => simp [trimHistory]
  | cons x t ih =>
      simp only [trimHistory]
      split_ifs with hc
      · exact ih
      · simp only [List.length_cons] at hc ⊢
        omega

theorem trimHistory_eq_drop (ul : Nat) (h : List Png) :
    trimHistory ul h = h.drop (h.length - ul) := by
  induction h with
  | nil => simp [trimHistory]
  | cons x t ih =>
      simp only [trimHistory, List.length_cons]
      split_ifs with hc
      · have hlen : t.length + 1 - ul = (t.length - ul) + 1 := by omega
        rw [hlen, List.drop_succ_cons]
        exact ih
      · have hlen : t.length + 1 - ul = 0 := by omega
        rw [hlen]
        rfl

theorem drop_one_append_singleton (h : List Png) (c : Png) (hne : h ≠ []) :
    (h ++ [c]).drop 1 = h.drop 1 ++ [c] := by
  cases h with
  | nil => exact absurd rfl hne
  | cons x t => simp

theorem push_trim_length_le (ul : Nat) (old : List Png) (cur : Png)
    (hold : old.length ≤ ul) :
    (if ul < (old ++ [cur]).length then (old ++ [cur]).drop 1 else old ++ [cur]).length
      ≤ ul := by
  split_ifs with hb
  · simp only [List.length_drop, List.length_append, List.length_cons, List.length_nil]
    omega
  · simp only [List.length_append, List.length_cons, List.length_nil] at hb ⊢
    omega

theorem depthWF_remove (s : CacheState) (id : String) (h : DepthWF s) :
    DepthWF (remove_image_internal s id) := by
  intro p hp
  exact h p (mem_dictErase _ _ _ hp)

theorem depthWF_evict (s : CacheState) (h : DepthWF s) : DepthWF (evict_if_needed s).1 := by
  simp only [evict_if_needed]
  refine evictLoop_pres_any _ DepthWF ?_ _ _ (evictLoop_pres_any _ DepthWF ?_ _ _ h) <;>
    exact fun t id ht => depthWF_remove t id ht

theorem depthWF_storeNoEvict (s : CacheState) (img : Png) (oid : Option String) (sh : Bool)
    (h : DepthWF s) : DepthWF (storeNoEvict s img oid sh).1 := by
  rcases oid with _ | id
  · intro p hp
    exact h p hp
  · rcases hget : dictGet s.imageStore id with _ | cur
    · cases sh
      · intro p hp
        simp only [storeNoEvict, hget, touch_image_eq] at hp ⊢
        exact h p hp
      · intro p hp
        simp only [storeNoEvict, hget, touch_image_eq] at hp ⊢
        exact h p hp
    · cases sh
      · intro p hp
        simp only [storeNoEvict, hget, touch_image_eq] at hp ⊢
        exact h p hp
      · intro p hp
        simp only [storeNoEvict, hget, touch_image_eq] at hp ⊢
        rcases mem_dictSet _ _ _ _ hp with hd | hd
        · subst hd
          show (if s.undoLevels < ((dictGet s.imageHistory id).getD [] ++ [cur]).length
              then ((dictGet s.imageHistory id).getD [] ++ [cur]).drop 1
              else (dictGet s.imageHistory id).getD [] ++ [cur]).length ≤ s.undoLevels
          apply push_trim_length_le
          rcases hh : dictGet s.imageHistory id with _ | old
          · simp
          · simpa using h (id, old) (mem_of_dictGet_eq_some _ _ _ hh)
        · exact h p hd

theorem depthWF_applyLimits (s : CacheState) (mi mm ul : Option Nat) (h : DepthWF s) :
    DepthWF (applyLimits s mi mm ul) := by
  rcases ul with _ | v
  · rcases mi with _ | a <;> rcases mm with _ | b <;>
      (intro p hp; exact h p hp)
  · rcases mi with _ | a <;> rcases mm with _ | b <;>
      (intro p hp
       simp only [applyLimits] at hp ⊢
       rcases List.mem_map.mp hp with ⟨q, _, rfl⟩
       exact trimHistory_length_le v q.2)

theorem depthWF_applyOp (s : CacheState) (op : CacheOp) (h : DepthWF s) :
    DepthWF (applyOp s op) := by
  cases op with
  | store img oid sh =>
      simp only [applyOp, store_image]
      exact depthWF_evict _ (depthWF_storeNoEvict s img oid sh h)
  | fetch id =>
      rcases hget : dictGet s.imageStore id with _ | p
      · simpa [applyOp, get_image, hget] using h
      · intro q hq
        simp only [applyOp, get_image, hget, touch_image_eq] at hq ⊢
        exact h q hq
  | undoOp id =>
      rcases hh : dictGet s.imageHistory id with _ | hist
      · simpa [applyOp, undo, hh] using h
      · rcases hist with _ | ⟨h0, t⟩
        · simpa [applyOp, undo, hh] using h
        · intro q hq
          simp only [applyOp, undo, hh] at hq ⊢
          rcases mem_dictSet _ _ _ _ hq with hd | hd
          · subst hd
            have hold : (h0 :: t).length ≤ s.undoLevels :=
              h (id, h0 :: t) (mem_of_dictGet_eq_some _ _ _ hh)
            simp only [List.length_dropLast]
            omega
          · exact h q hd
  | delete id =>
      rcases hget : dictGet s.imageStore id with _ | p
      · simpa [applyOp, delete_image, hget] using h
      · intro q hq
        simp only [applyOp, delete_image, hget] at hq ⊢
        exact depthWF_remove s id h q hq
  | configure mi mm ul =>
      by_cases hv : limits_out_of_range mi mm ul
      · simpa [applyOp, server_configure_limits, hv] using h
      · simp only [applyOp, server_configure_limits, hv, Bool.false_eq_true, if_false,
          configure_limits]
        exact depthWF_evict _ (depthWF_applyLimits s _ _ _ h)

theorem depthWF_applyOps (ops : List CacheOp) :
    ∀ s : CacheState, DepthWF s → DepthWF (applyOps ops s) := by
  induction ops with
  | nil => intro s hs; exact hs
  | cons o rest ih =>
      intro s hs
      exact ih _ (depthWF_applyOp s o hs)

/-- C6: after every sequence of operations from a fresh session, each
resident undo stack has depth at most the current undoLevels; a limit
change that provides undoLevels immediately truncates every history stack
to the new bound by dropping oldest entries first (before its eviction
pass); and a history push onto a full stack drops the oldest snapshot
first. -/
theorem history_depth_bounded_and_truncated :
    (∀ (ops : List CacheOp) (mi mm ul : Nat) (id : String) (h : List Png),
      dictGet (applyOps ops (initState mi mm ul)).imageHistory id = Option.some h →
      h.length ≤ (applyOps ops (initState mi mm ul)).undoLevels) ∧
    (∀ (s : CacheState) (mi mm : Option Nat) (v : Nat) (id : String) (h : List Png),
      dictGet s.imageHistory id = Option.some h →
      dictGet (applyLimits s mi mm (Option.some v)).imageHistory id
        = Option.some (h.drop (h.length - v))) ∧
    (∀ (s : CacheState) (img cur : Png) (id : String) (h : List Png),
      dictGet s.imageStore id = Option.some cur →
      dictGet s.imageHistory id = Option.some h →
      h.length = s.undoLevels → 1 ≤ s.undoLevels →
      dictGet (storeNoEvict s img (Option.some id) true).1.imageHistory id
        = Option.some (h.drop 1 ++ [cur])) := by
  refine ⟨?_, ?_, ?_⟩
  · intro ops mi mm ul id h hget
    have hwf := depthWF_applyOps ops (initState mi mm ul) (by intro p hp; simp [initState] at hp)
    exact hwf (id, h) (mem_of_dictGet_eq_some _ _ _ hget)
  · intro s mi mm v id h hh
    rcases mi with _ | a <;> rcases mm with _ | b
    all_goals (simp only [applyLimits]; rw [dictGet_map_value, hh]; simp [trimHistory_eq_drop])
  · intro s img cur id h hget hh hfull hpos
    have hne : h ≠ [] := by
      intro hnil
      rw [hnil] at hfull
      simp at hfull
      omega
    simp only [storeNoEvict, hget, touch_image_eq, hh, Option.getD_some]
    rw [dictGet_set_self]
    have hover : s.undoLevels < (h ++ [cur]).length := by
      simp only [List.length_append, List.length_cons, List.length_nil]
      omega
    rw [if_pos hover, drop_one_append_singleton h cur hne]

theorem history_depth_bounded_and_truncated_witness :
    (dictGet (applyOps [CacheOp.store pngA Option.none true,
        CacheOp.store pngB (Option.some "img_1") true] (initState 50 500 10)).imageHistory
        "img_1" = Option.some [pngA]) ∧
    (([pngA] : List Png).length ≤ (applyOps [CacheOp.store pngA Option.none true,
        CacheOp.store pngB (Option.some "img_1") true] (initState 50 500 10)).undoLevels) ∧
    (dictGet c5s3.imageHistory "img_1" = Option.some [pngA, pngB]) ∧
    (dictGet (applyLimits c5s3 Option.none Option.none (Option.some 1)).imageHistory "img_1"
      = Option.some (([pngA, pngB] : List Png).drop (([pngA, pngB] : List Png).length - 1))) ∧
    (dictGet c6s.imageStore "img_1" = Option.some pngB) ∧
    (dictGet c6s.imageHistory "img_1" = Option.some [pngA]) ∧
    (dictGet (storeNoEvict c6s pngC (Option.some "img_1") true).1.imageHistory "img_1"
      = Option.some (([pngA] : List Png).drop 1 ++ [pngB])) :=
  ⟨by decide,
    history_depth_bounded_and_truncated.1
      [CacheOp.store pngA Option.none true, CacheOp.store pngB (Option.some "img_1") true]
      50 500 10 "img_1" [pngA] (by decide),
    by decide,
    history_depth_bounded_and_truncated.2.1 c5s3 Option.none Option.none 1 "img_1"
      [pngA, pngB] (by decide),
    by decide, by decide,
    history_depth_bounded_and_truncated.2.2 c6s pngC pngB "img_1" [pngA]
      (by decide) (by decide) (by decide) (by decide)⟩

end McpScreenshot
